import Mathlib

/-!
Verification of the databridge import pipeline (src/tabs/ImportTab.py).

The presentation-layer logic (`ImportTab.collect_mapping`, `ImportTab.get_delimiter`,
the batch/worker spin boxes, `ImportTab.generate_sql`, `ImportWorker.run`) is embedded
directly from the source.  The pipeline components that live in the `business_logic`
module (`Transformer`, `CsvStream`, `ClickHouseUploader`, `make_staging_sql`) are not
part of the repository snapshot, so `Transformer` is modelled from the specification
and the loader/stream are abstracted as function parameters.
-/

namespace DataBridge

/-- One Python character class test, matching `str.strip()`'s default ASCII
whitespace characters: space, tab, newline, carriage return, vertical tab,
form feed.  (Exotic Unicode spaces are out of scope for this model.) -/
def pyIsSpace (c : Char) : Bool :=
  c = ' ' || c = '\t' || c = '\n' || c = '\r' || c.val = 11 || c.val = 12

/-- Python `str.strip()`: drop leading and trailing whitespace. -/
def pyStrip (s : String) : String :=
  ⟨((s.data.dropWhile pyIsSpace).reverse.dropWhile pyIsSpace).reverse⟩

/-- Python `dict` assignment `d[k] = v` on a dictionary represented as an
association list: overwrite the value if the key is present, otherwise append
the new pair at the end (Python dicts preserve insertion order). -/
def dictInsert {α : Type} (l : List (String × α)) (k : String) (v : α) :
    List (String × α) :=
  if l.any (fun p => p.1 == k) then
    l.map (fun p => if p.1 == k then (k, v) else p)
  else
    l ++ [(k, v)]

/-- One row of the mapping table `ImportTab.tbl`:
column 0 is the read-only ClickHouse label `f"{name} ({typ})"`,
column 1 a `CheckableComboBox` whose `checked_items()` we record,
column 2 a `QLineEdit` holding the static value text. -/
structure MappingRow where
  chLabel : String
  checkedItems : List String
  staticText : String

/-- `ch_label.split(" ")[0]`: the ClickHouse column name is the first
space-separated word of the label. -/
def chColOf (label : String) : String :=
  ((label.splitOn " ").headD "")

namespace ImportTab

/-- One iteration of the loop in `ImportTab.collect_mapping`: read the row's
label, checked CSV columns and stripped static text; record the mapping when
the checked list is non-empty and the static value when the stripped text is
non-empty (Python truthiness on `csv_cols` and `const_val`). -/
def collectStep (acc : List (String × List String) × List (String × String))
    (r : MappingRow) : List (String × List String) × List (String × String) :=
  let chCol := chColOf r.chLabel
  let constVal := pyStrip r.staticText
  let m := if r.checkedItems = [] then acc.1 else dictInsert acc.1 chCol r.checkedItems
  let s := if constVal = "" then acc.2 else dictInsert acc.2 chCol constVal
  (m, s)

/-- `ImportTab.collect_mapping`: fold over the mapping-table rows building the
`mapping` and `statics` dictionaries. -/
def collect_mapping (rows : List MappingRow) :
    List (String × List String) × List (String × String) :=
  rows.foldl collectStep ([], [])

/-- The delimiter presets of `ImportTab.get_delimiter`'s `delimiter_map`. -/
def delimiter_map : List (String × String) :=
  [("Запятая (,)", ","),
   ("Точка с запятой (;)", ";"),
   ("Табуляция (\\t)", "\t"),
   ("Вертикальная черта (|)", "|"),
   ("Двоеточие (:)", ":")]

/-- The UI state `get_delimiter` reads: the combo box's current text and the
custom delimiter line edit's text. -/
structure DelimiterUI where
  selected : String
  customText : String

/-- `ImportTab.get_delimiter`: the custom option returns the line edit's text,
falling back to a comma when it is empty; any other selection is looked up in
`delimiter_map` with `,` as the `dict.get` default. -/
def get_delimiter (ui : DelimiterUI) : String :=
  if ui.selected = "Пользовательский" then
    if ui.customText = "" then "," else ui.customText
  else
    (List.lookup ui.selected delimiter_map).getD ","

end ImportTab

/-- Qt `QSpinBox` state: a minimum, a maximum and the current value. -/
structure QSpinBox where
  minimum : Int
  maximum : Int
  value : Int

/-- Qt semantics of `QSpinBox.setValue`: the stored value is clamped into
`[minimum, maximum]`. -/
def QSpinBox.setValue (sb : QSpinBox) (v : Int) : QSpinBox :=
  { sb with value := max sb.minimum (min sb.maximum v) }

/-- Qt semantics of `QSpinBox.setRange`: install the new bounds and clamp the
current value into them. -/
def QSpinBox.setRange (sb : QSpinBox) (lo hi : Int) : QSpinBox :=
  { minimum := lo, maximum := hi, value := max lo (min hi sb.value) }

/-- A fresh `QSpinBox()` (Qt defaults: range `[0, 99]`, value `0`). -/
def QSpinBox.new : QSpinBox := ⟨0, 99, 0⟩

/-- Apply a sequence of user edits (`setValue` calls) to a spin box. -/
def QSpinBox.applyAll (sb : QSpinBox) (vs : List Int) : QSpinBox :=
  vs.foldl QSpinBox.setValue sb

namespace ImportTab

/-- `self.spin_batch` after `ImportTab.__init__`:
`setRange(1000, 500000)` then `setValue(100000)`. -/
def spin_batch_init : QSpinBox :=
  (QSpinBox.new.setRange 1000 500000).setValue 100000

/-- `self.spin_workers` after `ImportTab.__init__`:
`setRange(1, 16)` then `setValue(4)`. -/
def spin_workers_init : QSpinBox :=
  (QSpinBox.new.setRange 1 16).setValue 4

/-- The tunables `ImportTab.start_import` hands to `ImportWorker`:
`batch_size=self.spin_batch.value()` and `workers=self.spin_workers.value()`. -/
def start_import_args (batchSpin workerSpin : QSpinBox) : Int × Int :=
  (batchSpin.value, workerSpin.value)

/-- The arguments `ImportTab.generate_sql` passes to `make_staging_sql`;
`filters` stands for the `filters_by_csv` dictionary, passed through verbatim. -/
structure StagingSqlArgs (α : Type) where
  sourceDb : String
  stagingTable : String
  targetDb : String
  targetTable : String
  mapping : List (String × List String)
  filters : α
  statics : List (String × String)

/-- `ImportTab.generate_sql`: collect the mapping, refuse when the target table
name is empty (Python truthiness of `params["table"]`), otherwise call
`make_staging_sql` on `<table>_staging` and the collected metadata. -/
def generate_sql {α : Type} (database table : String) (rows : List MappingRow)
    (filters : α) : Option (StagingSqlArgs α) :=
  let collected := collect_mapping rows
  if table = "" then none
  else some
    { sourceDb := database
      stagingTable := table ++ "_staging"
      targetDb := database
      targetTable := table
      mapping := collected.1
      filters := filters
      statics := collected.2 }

end ImportTab

/-- A raw row, represented as an association from source-column name to the
raw string field value (the spec's positional Raw Row joined with the Header). -/
def RawRow : Type := List (String × String)

/-- Modelled from the spec: `business_logic.Transformer` (§4.2) is not part of
the repository snapshot.  It is constructed from a Column Mapping (target
column to ordered list of source columns), a Static Override set (target column
to literal), and a Filter Rule Set; `filters src v` abstracts applying source
column `src`'s rule chain to raw value `v`, returning `none` when a rule
rejects (which drops the whole row). -/
structure Transformer where
  mapping : List (String × List String)
  statics : List (String × String)
  filters : String → String → Option String

namespace Transformer

/-- Modelled from the spec: the filtered value of source column `src` in a raw
row — the column's rule chain applied to the row's raw field value. -/
def filteredValue (tr : Transformer) (row : RawRow) (src : String) : Option String :=
  tr.filters src ((List.lookup src row).getD "")

/-- Modelled from the spec (§4.2 step 4): output column order is the mapping's
target columns in registration order, then override-only columns. -/
def outputColumns (tr : Transformer) : List String :=
  tr.mapping.map (fun p => p.1) ++
    (tr.statics.map (fun p => p.1)).filter
      (fun c => ¬ (tr.mapping.map (fun p => p.1)).contains c)

/-- Modelled from the spec (§4.2 steps 2–3): the output cell for one target
column — the static literal when an override exists, otherwise the filtered
values of the mapped source columns concatenated in listed order with a single
space separator. -/
def cellValue (tr : Transformer) (row : RawRow) (target : String) : String :=
  match List.lookup target tr.statics with
  | some v => v
  | none =>
    let srcs := (List.lookup target tr.mapping).getD []
    String.intercalate " " (srcs.map (fun s => (tr.filteredValue row s).getD ""))

/-- Modelled from the spec (§4.2 step 1): a row is admitted atomically — it is
dropped entirely when any source column referenced anywhere in the Column
Mapping is rejected by its filter chain. -/
def transformRow (tr : Transformer) (row : RawRow) : Option (List String) :=
  if (tr.mapping.flatMap (fun p => p.2)).all
      (fun s => (tr.filteredValue row s).isSome) then
    some (tr.outputColumns.map (tr.cellValue row))
  else
    none

/-- Modelled from the spec: `Transformer.transform_batch` returns the ordered
output column names and the surviving transformed rows. -/
def transform_batch (tr : Transformer) (batch : List RawRow) :
    List String × List (List String) :=
  (tr.outputColumns, batch.filterMap tr.transformRow)

end Transformer

namespace ImportWorker

/-- The `batches()` generator inside `ImportWorker.run`: each CSV batch from
`stream.iter_rows` is passed through `transformer.transform_batch`, and the
result is yielded only when `cols and data` are both non-empty (Python
truthiness on the two lists). -/
def runBatches (tr : Transformer) : List (List RawRow) →
    List (List String × List (List String))
  | [] => []
  | b :: rest =>
    let out := tr.transform_batch b
    if out.1 ≠ [] ∧ out.2 ≠ [] then out :: runBatches tr rest
    else runBatches tr rest

/-- The Qt signals `ImportWorker` can emit: periodic `progress(total, rate)`
notifications and the terminal `finished(total)` / `failed(msg)` pair. -/
inductive Signal where
  | progress (total : Nat) (rate : Nat)
  | finished (total : Nat)
  | failed (msg : String)
deriving DecidableEq

/-- Whether a signal is terminal (`finished` or `failed`). -/
def Signal.isTerminal : Signal → Bool
  | .progress _ _ => false
  | .finished _ => true
  | .failed _ => true

/-- `ImportWorker.run` as its emission trace.  `streamed` is the outcome of
constructing and draining `CsvStream` (an exception anywhere in the `try`
block lands in the `except` branch, emitting `failed(str(e))`); `ins` abstracts
`ClickHouseUploader.insert_parallel`, returning the progress-callback
invocations it made plus either the total inserted or the error it raised.
On success the worker emits `finished(total)`; on an exception it emits
`failed(msg)`; either way exactly one terminal signal ends the trace. -/
def runTrace (streamed : Except String (List (List RawRow))) (tr : Transformer)
    (ins : List (List String × List (List String)) →
      List (Nat × Nat) × Except String Nat) : List Signal :=
  match streamed with
  | .error e => [.failed e]
  | .ok csvBatches =>
    let res := ins (runBatches tr csvBatches)
    res.1.map (fun p => .progress p.1 p.2) ++
      [match res.2 with
       | .ok total => .finished total
       | .error e => .failed e]

end ImportWorker

/-! ### Association-list dictionary lemmas -/

theorem lookup_map_overwrite {α : Type} (l : List (String × α)) (k : String) (v : α)
    (h : l.any (fun p => p.1 == k) = true) :
    List.lookup k (l.map (fun p => if p.1 == k then (k, v) else p)) = some v := by
  induction l with
  | nil => simp at h
  | cons p t ih =>
    rcases p with ⟨a, b⟩
    by_cases ha : a = k
    · subst ha
      have h1 : (a == a) = true := beq_self_eq_true a
      rw [List.map_cons]
      show List.lookup a ((if (a == a) = true then (a, v) else (a, b)) :: _) = some v
      rw [if_pos h1]
      exact List.lookup_cons_self
    · have ha' : (a == k) = false := beq_eq_false_iff_ne.mpr ha
      have hk : (k == a) = false := beq_eq_false_iff_ne.mpr (Ne.symm ha)
      have ht : t.any (fun p => p.1 == k) = true := by
        have h2 : ((a == k) || t.any (fun p => p.1 == k)) = true := h
        rw [ha', Bool.false_or] at h2
        exact h2
      rw [List.map_cons]
      show List.lookup k ((if (a == k) = true then (k, v) else (a, b)) :: _) = some v
      rw [if_neg (by rw [ha']; exact Bool.false_ne_true), List.lookup_cons, hk]
      exact ih ht

theorem lookup_map_overwrite_ne {α : Type} (l : List (String × α)) (k k' : String) (v : α)
    (hne : k' ≠ k) :
    List.lookup k' (l.map (fun p => if p.1 == k then (k, v) else p)) =
      List.lookup k' l := by
  induction l with
  | nil => rfl
  | cons p t ih =>
    rcases p with ⟨a, b⟩
    by_cases ha : a = k
    · subst ha
      have h1 : (a == a) = true := beq_self_eq_true a
      have hk : (k' == a) = false := beq_eq_false_iff_ne.mpr hne
      rw [List.map_cons]
      show List.lookup k' ((if (a == a) = true then (a, v) else (a, b)) :: _) =
        List.lookup k' ((a, b) :: t)
      rw [if_pos h1, List.lookup_cons, List.lookup_cons, hk]
      exact ih
    · have ha' : (a == k) = false := beq_eq_false_iff_ne.mpr ha
      rw [List.map_cons]
      show List.lookup k' ((if (a == k) = true then (k, v) else (a, b)) :: _) =
        List.lookup k' ((a, b) :: t)
      rw [if_neg (by rw [ha']; exact Bool.false_ne_true), List.lookup_cons,
        List.lookup_cons]
      cases hka : (k' == a)
      · exact ih
      · rfl

theorem any_eq_false_lookup_eq_none {α : Type} (l : List (String × α)) (k : String)
    (h : l.any (fun p => p.1 == k) = false) :
    List.lookup k l = none := by
  induction l with
  | nil => rfl
  | cons p t ih =>
    rcases p with ⟨a, b⟩
    have h2 : ((a == k) || t.any (fun p => p.1 == k)) = false := h
    rw [Bool.or_eq_false_iff] at h2
    have hk : (k == a) = false := by
      rw [beq_eq_false_iff_ne] at h2 ⊢
      exact Ne.symm h2.1
    rw [List.lookup_cons, hk]
    exact ih h2.2

theorem lookup_dictInsert_self {α : Type} (l : List (String × α)) (k : String) (v : α) :
    List.lookup k (dictInsert l k v) = some v := by
  unfold dictInsert
  split
  · exact lookup_map_overwrite l k v (by assumption)
  · rename_i h
    have h' : l.any (fun p => p.1 == k) = false := by rwa [Bool.not_eq_true] at h
    rw [List.lookup_append, any_eq_false_lookup_eq_none l k h']
    simp [List.lookup_cons]

theorem lookup_dictInsert_ne {α : Type} (l : List (String × α)) (k k' : String) (v : α)
    (hne : k' ≠ k) :
    List.lookup k' (dictInsert l k v) = List.lookup k' l := by
  unfold dictInsert
  split
  · exact lookup_map_overwrite_ne l k k' v hne
  · rw [List.lookup_append]
    have h1 : List.lookup k' [(k, v)] = none := by
      simp [List.lookup_cons, beq_eq_false_iff_ne.mpr hne]
    rw [h1, Option.or_none]

/-! ### collect_mapping fold lemmas -/

theorem collect_foldl_lookup_preserved :
    ∀ (rows : List MappingRow)
      (acc : List (String × List String) × List (String × String)) (k : String),
      (∀ r ∈ rows, chColOf r.chLabel ≠ k) →
      List.lookup k (rows.foldl ImportTab.collectStep acc).1 = List.lookup k acc.1 ∧
      List.lookup k (rows.foldl ImportTab.collectStep acc).2 = List.lookup k acc.2 := by
  intro rows
  induction rows with
  | nil => exact fun acc k h => ⟨rfl, rfl⟩
  | cons r t ih =>
    intro acc k h
    have hr : k ≠ chColOf r.chLabel := (h r (List.mem_cons_self r t)).symm
    have ht : ∀ r' ∈ t, chColOf r'.chLabel ≠ k :=
      fun r' hm => h r' (List.mem_cons_of_mem r hm)
    rw [List.foldl_cons]
    obtain ⟨h1, h2⟩ := ih (ImportTab.collectStep acc r) k ht
    refine ⟨h1.trans ?_, h2.trans ?_⟩
    · simp only [ImportTab.collectStep]
      split
      · rfl
      · exact lookup_dictInsert_ne _ _ _ _ hr
    · simp only [ImportTab.collectStep]
      split
      · rfl
      · exact lookup_dictInsert_ne _ _ _ _ hr

theorem collect_foldl_lookup_settled :
    ∀ (rows : List MappingRow)
      (acc : List (String × List String) × List (String × String)) (r : MappingRow),
      r ∈ rows →
      (rows.map (fun r' => chColOf r'.chLabel)).Nodup →
      List.lookup (chColOf r.chLabel) acc.1 = none →
      List.lookup (chColOf r.chLabel) acc.2 = none →
      List.lookup (chColOf r.chLabel) (rows.foldl ImportTab.collectStep acc).1 =
        (if r.checkedItems = [] then none else some r.checkedItems) ∧
      List.lookup (chColOf r.chLabel) (rows.foldl ImportTab.collectStep acc).2 =
        (if pyStrip r.staticText = "" then none
         else some (pyStrip r.staticText)) := by
  intro rows
  induction rows with
  | nil => intro acc r hmem; cases hmem
  | cons r₀ t ih =>
    intro acc r hmem hnodup hm0 hs0
    rw [List.map_cons, List.nodup_cons] at hnodup
    rw [List.foldl_cons]
    rcases List.mem_cons.mp hmem with rfl | hmem'
    · have hnot : ∀ r' ∈ t, chColOf r'.chLabel ≠ chColOf r.chLabel := by
        intro r' hr' hcontra
        exact hnodup.1 (hcontra ▸ List.mem_map_of_mem _ hr')
      obtain ⟨p1, p2⟩ :=
        collect_foldl_lookup_preserved t (ImportTab.collectStep acc r) _ hnot
      refine ⟨p1.trans ?_, p2.trans ?_⟩
      · simp only [ImportTab.collectStep]
        split
        · exact hm0
        · exact lookup_dictInsert_self _ _ _
      · simp only [ImportTab.collectStep]
        split
        · exact hs0
        · exact lookup_dictInsert_self _ _ _
    · have hne : chColOf r.chLabel ≠ chColOf r₀.chLabel := by
        intro hcontra
        exact hnodup.1 (hcontra ▸ List.mem_map_of_mem _ hmem')
      have hm0' :
          List.lookup (chColOf r.chLabel) (ImportTab.collectStep acc r₀).1 = none := by
        simp only [ImportTab.collectStep]
        split
        · exact hm0
        · rw [lookup_dictInsert_ne _ _ _ _ hne]
          exact hm0
      have hs0' :
          List.lookup (chColOf r.chLabel) (ImportTab.collectStep acc r₀).2 = none := by
        simp only [ImportTab.collectStep]
        split
        · exact hs0
        · rw [lookup_dictInsert_ne _ _ _ _ hne]
          exact hs0
      exact ih (ImportTab.collectStep acc r₀) r hmem' hnodup.2 hm0' hs0'

/-! ### Whitespace-strip lemmas -/

theorem dropWhile_eq_nil_iff_all {α : Type} (p : α → Bool) (l : List α) :
    l.dropWhile p = [] ↔ ∀ x ∈ l, p x = true := by
  induction l with
  | nil => simp
  | cons a t ih =>
    by_cases ha : p a = true
    · simp [List.dropWhile_cons_of_pos ha, ih, ha]
    · simp [List.dropWhile_cons_of_neg ha, ha]

theorem forall_mem_dropWhile_iff {α : Type} (p : α → Bool) (l : List α) :
    (∀ x ∈ l.dropWhile p, p x = true) ↔ ∀ x ∈ l, p x = true := by
  induction l with
  | nil => simp
  | cons a t ih =>
    by_cases ha : p a = true
    · simp [List.dropWhile_cons_of_pos ha, ih, ha]
    · simp [List.dropWhile_cons_of_neg ha, ha]

theorem pyStrip_eq_empty_iff (s : String) :
    pyStrip s = "" ↔ ∀ c ∈ s.data, pyIsSpace c = true := by
  rw [String.ext_iff]
  show ((s.data.dropWhile pyIsSpace).reverse.dropWhile pyIsSpace).reverse =
      ("".data : List Char) ↔ _
  rw [show ("".data : List Char) = [] from rfl, List.reverse_eq_nil_iff,
    dropWhile_eq_nil_iff_all]
  constructor
  · intro h c hc
    exact (forall_mem_dropWhile_iff pyIsSpace s.data).mp
      (fun x hx => h x (List.mem_reverse.mpr hx)) c hc
  · intro h c hc
    exact h c ((List.dropWhile_sublist pyIsSpace).subset
      ((List.mem_reverse).mp hc))

/-! ### Zip/map and misc helper lemmas -/

theorem zip_map_snd {α β : Type} (l : List α) (f : α → β) :
    ∀ p ∈ l.zip (l.map f), p.2 = f p.1 := by
  induction l with
  | nil => intro p hp; cases hp
  | cons a t ih =>
    intro p hp
    rw [List.map_cons, List.zip_cons_cons] at hp
    rcases List.mem_cons.mp hp with rfl | hp'
    · rfl
    · exact ih p hp'

theorem delimiter_lookup_length (sel : String) :
    ((List.lookup sel ImportTab.delimiter_map).getD ",").length = 1 := by
  rcases h : List.lookup sel ImportTab.delimiter_map with _ | v
  · rfl
  · obtain ⟨l₁, l₂, hsplit, _⟩ := List.lookup_eq_some_iff.mp h
    have hmem : (sel, v) ∈ ImportTab.delimiter_map := by
      rw [hsplit]
      exact List.mem_append_right _ (List.mem_cons_self _ _)
    simp only [ImportTab.delimiter_map, List.mem_cons, List.not_mem_nil,
      or_false] at hmem
    rcases hmem with h1 | h1 | h1 | h1 | h1 <;>
      · rw [Prod.mk.injEq] at h1
        rw [h1.2]
        rfl

theorem applyAll_value_bounds :
    ∀ (vs : List Int) (sb : QSpinBox),
      sb.minimum ≤ sb.maximum → sb.minimum ≤ sb.value → sb.value ≤ sb.maximum →
      (sb.applyAll vs).minimum = sb.minimum ∧
      (sb.applyAll vs).maximum = sb.maximum ∧
      sb.minimum ≤ (sb.applyAll vs).value ∧
      (sb.applyAll vs).value ≤ sb.maximum := by
  intro vs
  induction vs with
  | nil => exact fun sb h0 h1 h2 => ⟨rfl, rfl, h1, h2⟩
  | cons v t ih =>
    intro sb h0 h1 h2
    have hstep : QSpinBox.applyAll sb (v :: t) = QSpinBox.applyAll (sb.setValue v) t :=
      rfl
    rw [hstep]
    have hmin : (sb.setValue v).minimum = sb.minimum := rfl
    have hmax : (sb.setValue v).maximum = sb.maximum := rfl
    have hv1 : (sb.setValue v).minimum ≤ (sb.setValue v).value := le_max_left _ _
    have hv2 : (sb.setValue v).value ≤ (sb.setValue v).maximum := by
      rw [hmax]
      exact max_le h0 (min_le_left _ _)
    obtain ⟨a, b, c, d⟩ := ih (sb.setValue v) (by rw [hmin, hmax]; exact h0) hv1 hv2
    exact ⟨a.trans hmin, b.trans hmax, hmin ▸ c, hmax ▸ d⟩

theorem filter_isTerminal_map_progress (l : List (Nat × Nat)) :
    (l.map (fun p => ImportWorker.Signal.progress p.1 p.2)).filter
      ImportWorker.Signal.isTerminal = [] := by
  induction l with
  | nil => rfl
  | cons x xs ih =>
    rw [List.map_cons, List.filter_cons]
    simpa [ImportWorker.Signal.isTerminal] using ih

/-! ## Claim theorems -/

/-- C4 counterexample: the claim says `get_delimiter` always returns a string of
length exactly one, but when the selection is the user-supplied option and the
custom field holds `"||"`, `get_delimiter` returns `"||"` of length two. -/
theorem c4_counterexample :
    ¬ ((ImportTab.get_delimiter ⟨"Пользовательский", "||"⟩).length = 1) := by
  decide

/-- C4 (amended): for every selection other than the user-supplied option,
`get_delimiter` returns a single character (a preset from the delimiter map or
the comma fallback); for the user-supplied option it returns the custom field
text verbatim — of any length — falling back to a comma when the field is
empty. -/
theorem c4_delimiter_amended :
    (∀ ui : ImportTab.DelimiterUI, ui.selected ≠ "Пользовательский" →
      (ImportTab.get_delimiter ui).length = 1) ∧
    (∀ ui : ImportTab.DelimiterUI, ui.selected = "Пользовательский" →
      ImportTab.get_delimiter ui =
        (if ui.customText = "" then "," else ui.customText)) := by
  constructor
  · intro ui h
    unfold ImportTab.get_delimiter
    rw [if_neg h]
    exact delimiter_lookup_length ui.selected
  · intro ui h
    unfold ImportTab.get_delimiter
    rw [if_pos h]

/-- Witness for C4 (amended) at the comma preset and at a two-character custom
delimiter. -/
theorem c4_delimiter_amended_witness :
    (ImportTab.get_delimiter ⟨"Запятая (,)", ""⟩).length = 1 ∧
    ImportTab.get_delimiter ⟨"Пользовательский", "ab"⟩ =
      (if ("ab" : String) = "" then "," else "ab") :=
  ⟨c4_delimiter_amended.1 ⟨"Запятая (,)", ""⟩ (by decide),
   c4_delimiter_amended.2 ⟨"Пользовательский", "ab"⟩ rfl⟩

/-- C5: the batch-size spin box is bounded to [1000, 500000] and the worker
spin box to [1, 16]; whatever sequence of values the user enters, the
`batch_size` and `workers` values `start_import` passes to the worker stay in
those intervals. -/
theorem c5_tunables_bounded :
    ∀ (vs ws : List Int),
      1000 ≤ (ImportTab.start_import_args (ImportTab.spin_batch_init.applyAll vs)
          (ImportTab.spin_workers_init.applyAll ws)).1 ∧
      (ImportTab.start_import_args (ImportTab.spin_batch_init.applyAll vs)
          (ImportTab.spin_workers_init.applyAll ws)).1 ≤ 500000 ∧
      1 ≤ (ImportTab.start_import_args (ImportTab.spin_batch_init.applyAll vs)
          (ImportTab.spin_workers_init.applyAll ws)).2 ∧
      (ImportTab.start_import_args (ImportTab.spin_batch_init.applyAll vs)
          (ImportTab.spin_workers_init.applyAll ws)).2 ≤ 16 := by
  intro vs ws
  have hb := applyAll_value_bounds vs ImportTab.spin_batch_init (by decide) (by decide)
    (by decide)
  have hw := applyAll_value_bounds ws ImportTab.spin_workers_init (by decide) (by decide)
    (by decide)
  exact ⟨hb.2.2.1, hb.2.2.2, hw.2.2.1, hw.2.2.2⟩

/-- C6: for every non-empty target table name, `generate_sql` builds the
staging table name by appending the literal suffix `_staging`. -/
theorem c6_staging_table_suffix {α : Type} :
    ∀ (db table : String) (rows : List MappingRow) (filters : α),
      table ≠ "" →
      ∃ args : ImportTab.StagingSqlArgs α,
        ImportTab.generate_sql db table rows filters = some args ∧
        args.stagingTable = table ++ "_staging" ∧
        args.targetTable = table := by
  intro db table rows filters h
  exact ⟨⟨db, table ++ "_staging", db, table, (ImportTab.collect_mapping rows).1,
      filters, (ImportTab.collect_mapping rows).2⟩,
    by simp only [ImportTab.generate_sql]; rw [if_neg h], rfl, rfl⟩

/-- Witness for C6 at the table name `events`. -/
theorem c6_staging_table_suffix_witness :
    ∃ args : ImportTab.StagingSqlArgs Unit,
      ImportTab.generate_sql "db" "events" [] () = some args ∧
      args.stagingTable = "events" ++ "_staging" ∧
      args.targetTable = "events" :=
  c6_staging_table_suffix "db" "events" [] () (by decide)

/-- C9: with the user-supplied delimiter option selected and an empty custom
field, `get_delimiter` falls back to a comma; it also returns a comma for any
selection absent from the delimiter map. -/
theorem c9_delimiter_fallbacks :
    (ImportTab.get_delimiter ⟨"Пользовательский", ""⟩ = ",") ∧
    (∀ ui : ImportTab.DelimiterUI, ui.selected ≠ "Пользовательский" →
      List.lookup ui.selected ImportTab.delimiter_map = none →
      ImportTab.get_delimiter ui = ",") := by
  constructor
  · rfl
  · intro ui h hl
    unfold ImportTab.get_delimiter
    rw [if_neg h, hl]
    rfl

/-- Witness for C9 at a selection absent from the delimiter map. -/
theorem c9_delimiter_fallbacks_witness :
    ImportTab.get_delimiter ⟨"zzz", "x"⟩ = "," :=
  c9_delimiter_fallbacks.2 ⟨"zzz", "x"⟩ (by decide) (by decide)

/-- C10: `collect_mapping` records a static override for a target column
exactly when the column's static field strips to a non-empty string, and the
recorded value is the stripped text; stripping yields the empty string exactly
when every character of the field is whitespace. -/
theorem c10_static_value_collection :
    (∀ (rows : List MappingRow) (r : MappingRow), r ∈ rows →
      (rows.map (fun r' => chColOf r'.chLabel)).Nodup →
      List.lookup (chColOf r.chLabel) (ImportTab.collect_mapping rows).2 =
        (if pyStrip r.staticText = "" then none
         else some (pyStrip r.staticText))) ∧
    (∀ s : String, pyStrip s = "" ↔ ∀ c ∈ s.data, pyIsSpace c = true) := by
  constructor
  · intro rows r hmem hnodup
    exact (collect_foldl_lookup_settled rows ([], []) r hmem hnodup rfl rfl).2
  · exact pyStrip_eq_empty_iff

/-- Witness for C10 at a single-row table whose static field is `"  hi  "`. -/
theorem c10_static_value_collection_witness :
    List.lookup (chColOf "name (String)")
        (ImportTab.collect_mapping [⟨"name (String)", [], "  hi  "⟩]).2 =
      (if pyStrip "  hi  " = "" then none else some (pyStrip "  hi  ")) ∧
    (pyStrip " \t " = "" ↔ ∀ c ∈ (" \t " : String).data, pyIsSpace c = true) :=
  ⟨c10_static_value_collection.1 [⟨"name (String)", [], "  hi  "⟩]
      ⟨"name (String)", [], "  hi  "⟩ (List.mem_cons_self _ _) (by simp),
   c10_static_value_collection.2 " \t "⟩

/-- C1: whenever a target column has a static override, every output row of
`transform_batch` carries exactly the override literal in that column —
mapped source values never reach it; and `collect_mapping` can indeed record
the same target column in both the mapping and the statics dictionaries. -/
theorem c1_static_override_wins :
    (∀ (tr : Transformer) (batch : List RawRow) (target v : String),
      List.lookup target tr.statics = some v →
      ∀ row ∈ (tr.transform_batch batch).2,
        ∀ p ∈ (tr.transform_batch batch).1.zip row, p.1 = target → p.2 = v) ∧
    (∀ (rows : List MappingRow) (r : MappingRow), r ∈ rows →
      (rows.map (fun r' => chColOf r'.chLabel)).Nodup →
      r.checkedItems ≠ [] → pyStrip r.staticText ≠ "" →
      List.lookup (chColOf r.chLabel) (ImportTab.collect_mapping rows).1 =
          some r.checkedItems ∧
        List.lookup (chColOf r.chLabel) (ImportTab.collect_mapping rows).2 =
          some (pyStrip r.staticText)) := by
  constructor
  · intro tr batch target v hv row hrow p hp hpt
    simp only [Transformer.transform_batch] at hrow hp
    obtain ⟨raw, hraw, hrow'⟩ := List.mem_filterMap.mp hrow
    have hrow2 : row = tr.outputColumns.map (tr.cellValue raw) := by
      unfold Transformer.transformRow at hrow'
      split at hrow'
      · exact (Option.some.inj hrow').symm
      · cases hrow'
    subst hrow2
    have h2 := zip_map_snd tr.outputColumns (tr.cellValue raw) p hp
    rw [h2, hpt]
    unfold Transformer.cellValue
    rw [hv]
  · intro rows r hmem hnodup hc hs
    obtain ⟨h1, h2⟩ := collect_foldl_lookup_settled rows ([], []) r hmem hnodup rfl rfl
    rw [if_neg hc] at h1
    rw [if_neg hs] at h2
    exact ⟨h1, h2⟩

/-- Witness for C1: a transformer whose target `t` is both mapped from source
`c` and overridden with `"X"` outputs `"X"`, not the source value `"a"`. -/
theorem c1_static_override_wins_witness :
    (List.lookup "t" (Transformer.mk [("t", ["c"])] [("t", "X")]
        (fun _ v => some v)).statics = some "X") ∧
    ((("t", "X") : String × String)).2 = "X" :=
  ⟨rfl,
   c1_static_override_wins.1 ⟨[("t", ["c"])], [("t", "X")], fun _ v => some v⟩
     [[("c", "a")]] "t" "X" rfl ["X"] (by decide) ("t", "X") (by decide) rfl⟩

/-- C2: for a target column without a static override, the transform output in
that column is the filtered source values concatenated with the single space
separator in exactly the mapping's listed source order; and `collect_mapping`
stores the `checked_items` list of the UI combo box verbatim, preserving its
order. -/
theorem c2_fanin_listed_order :
    (∀ (tr : Transformer) (raw : RawRow) (row : List String) (target : String)
        (srcs : List String),
      List.lookup target tr.statics = none →
      List.lookup target tr.mapping = some srcs →
      tr.transformRow raw = some row →
      ∀ p ∈ tr.outputColumns.zip row, p.1 = target →
        p.2 = String.intercalate " "
          (srcs.map (fun s => (tr.filteredValue raw s).getD ""))) ∧
    (∀ (rows : List MappingRow) (r : MappingRow), r ∈ rows →
      (rows.map (fun r' => chColOf r'.chLabel)).Nodup →
      r.checkedItems ≠ [] →
      List.lookup (chColOf r.chLabel) (ImportTab.collect_mapping rows).1 =
        some r.checkedItems) := by
  constructor
  · intro tr raw row target srcs hs hm hrow p hp hpt
    have hrow2 : row = tr.outputColumns.map (tr.cellValue raw) := by
      unfold Transformer.transformRow at hrow
      split at hrow
      · exact (Option.some.inj hrow).symm
      · cases hrow
    subst hrow2
    have h2 := zip_map_snd tr.outputColumns (tr.cellValue raw) p hp
    rw [h2, hpt]
    unfold Transformer.cellValue
    rw [hs, hm]
    rfl
  · intro rows r hmem hnodup hc
    have h1 := (collect_foldl_lookup_settled rows ([], []) r hmem hnodup rfl rfl).1
    rwa [if_neg hc] at h1

/-- Witness for C2: mapping `t ← [c1, c2, c3]` on row values `a`, `b`, `c`
produces `"a b c"`, and `collect_mapping` keeps the checked-items list
`[c1, c2, c3]` in order. -/
theorem c2_fanin_listed_order_witness :
    ((Transformer.mk [("t", ["c1", "c2", "c3"])] [] (fun _ v => some v)).transformRow
        [("c1", "a"), ("c2", "b"), ("c3", "c")] = some ["a b c"]) ∧
    ((("t", "a b c") : String × String)).2 =
      String.intercalate " " (["c1", "c2", "c3"].map
        (fun s => ((Transformer.mk [("t", ["c1", "c2", "c3"])] []
            (fun _ v => some v)).filteredValue
          [("c1", "a"), ("c2", "b"), ("c3", "c")] s).getD "")) ∧
    List.lookup (chColOf "t (String)")
        (ImportTab.collect_mapping [⟨"t (String)", ["c1", "c2", "c3"], ""⟩]).1 =
      some ["c1", "c2", "c3"] :=
  ⟨by decide,
   c2_fanin_listed_order.1 ⟨[("t", ["c1", "c2", "c3"])], [], fun _ v => some v⟩
     [("c1", "a"), ("c2", "b"), ("c3", "c")] ["a b c"] "t" ["c1", "c2", "c3"]
     rfl rfl (by decide) ("t", "a b c") (by decide) rfl,
   c2_fanin_listed_order.2 [⟨"t (String)", ["c1", "c2", "c3"], ""⟩]
     ⟨"t (String)", ["c1", "c2", "c3"], ""⟩ (List.mem_cons_self _ _) (by simp)
     (by decide)⟩

/-- C8: the `batches()` generator of `ImportWorker.run` yields a pair only when
both the column list and the rows list are non-empty, so the uploader never
receives an empty-column or zero-row batch. -/
theorem c8_uploader_batches_nonempty :
    ∀ (tr : Transformer) (csvBatches : List (List RawRow))
      (cols : List String) (data : List (List String)),
      (cols, data) ∈ ImportWorker.runBatches tr csvBatches →
      cols ≠ [] ∧ data ≠ [] := by
  intro tr csvBatches
  induction csvBatches with
  | nil => intro cols data h; cases h
  | cons b t ih =>
    intro cols data h
    simp only [ImportWorker.runBatches] at h
    split at h
    · rename_i hcond
      rcases List.mem_cons.mp h with heq | htail
      · have hc : cols = (tr.transform_batch b).1 := congrArg Prod.fst heq
        have hd : data = (tr.transform_batch b).2 := congrArg Prod.snd heq
        rw [hc, hd]
        exact hcond
      · exact ih cols data htail
    · exact ih cols data h

/-- Witness for C8 at a one-batch stream whose transform yields one column and
one row. -/
theorem c8_uploader_batches_nonempty_witness :
    ((["t"], [["x"]]) ∈ ImportWorker.runBatches
        ⟨[("t", ["c"])], [], fun _ v => some v⟩ [[[("c", "x")]]]) ∧
    (["t"] : List String) ≠ [] ∧ ([["x"]] : List (List String)) ≠ [] :=
  ⟨by decide,
   c8_uploader_batches_nonempty ⟨[("t", ["c"])], [], fun _ v => some v⟩
     [[[("c", "x")]]] ["t"] [["x"]] (by decide)⟩

/-- C3: every run of the import worker emits exactly one terminal signal; it is
`finished n` exactly when the uploader returned the total `n`, and `failed`
otherwise — success is never reported without the uploader's total. -/
theorem c3_single_terminal_signal :
    ∀ (streamed : Except String (List (List RawRow))) (tr : Transformer)
      (ins : List (List String × List (List String)) →
        List (Nat × Nat) × Except String Nat),
      ((ImportWorker.runTrace streamed tr ins).filter
          ImportWorker.Signal.isTerminal).length = 1 ∧
      (∀ (bs : List (List RawRow)) (pe : List (Nat × Nat)) (n : Nat),
        streamed = Except.ok bs →
        ins (ImportWorker.runBatches tr bs) = (pe, Except.ok n) →
        (ImportWorker.runTrace streamed tr ins).getLast? =
          some (ImportWorker.Signal.finished n)) ∧
      (∀ n : Nat,
        ImportWorker.Signal.finished n ∈ ImportWorker.runTrace streamed tr ins →
        ∃ (bs : List (List RawRow)) (pe : List (Nat × Nat)),
          streamed = Except.ok bs ∧
          ins (ImportWorker.runBatches tr bs) = (pe, Except.ok n)) := by
  intro streamed tr ins
  cases streamed with
  | error e =>
    refine ⟨rfl, ?_, ?_⟩
    · intro bs pe n hbs
      cases hbs
    · intro n hn
      simp only [ImportWorker.runTrace] at hn
      exact (ImportWorker.Signal.noConfusion (List.mem_singleton.mp hn))
  | ok bs =>
    rcases hres : ins (ImportWorker.runBatches tr bs) with ⟨pe, res⟩
    have htrace : ImportWorker.runTrace (Except.ok bs) tr ins =
        pe.map (fun p => ImportWorker.Signal.progress p.1 p.2) ++
          [match res with
           | Except.ok total => ImportWorker.Signal.finished total
           | Except.error e => ImportWorker.Signal.failed e] := by
      simp only [ImportWorker.runTrace, hres]
    refine ⟨?_, ?_, ?_⟩
    · rw [htrace, List.filter_append, filter_isTerminal_map_progress,
        List.nil_append]
      cases res with
      | ok total => rfl
      | error e => rfl
    · intro bs' pe' n hbs hins
      injection hbs with hbs'
      subst hbs'
      rw [hres] at hins
      injection hins with h1 h2
      subst h2
      rw [htrace, List.getLast?_concat]
    · intro n hn
      rw [htrace] at hn
      rcases List.mem_append.mp hn with hl | hr
      · obtain ⟨q, hq, hqe⟩ := List.mem_map.mp hl
        exact (ImportWorker.Signal.noConfusion hqe)
      · have hone := List.mem_singleton.mp hr
        cases res with
        | ok total =>
          have hnn : n = total := by
            injection hone
          refine ⟨bs, pe, rfl, ?_⟩
          rw [hnn]
          exact hres
        | error e => exact (ImportWorker.Signal.noConfusion hone)

/-- Witness for C3 at an empty stream and an uploader reporting total 0. -/
theorem c3_single_terminal_signal_witness :
    ((ImportWorker.runTrace (Except.ok []) ⟨[], [], fun _ v => some v⟩
        (fun _ => ([], Except.ok 0))).filter
      ImportWorker.Signal.isTerminal).length = 1 ∧
    (ImportWorker.runTrace (Except.ok []) ⟨[], [], fun _ v => some v⟩
        (fun _ => ([], Except.ok 0))).getLast? =
      some (ImportWorker.Signal.finished 0) :=
  ⟨(c3_single_terminal_signal (Except.ok []) ⟨[], [], fun _ v => some v⟩
      (fun _ => ([], Except.ok 0))).1,
   (c3_single_terminal_signal (Except.ok []) ⟨[], [], fun _ v => some v⟩
      (fun _ => ([], Except.ok 0))).2.1 [] [] 0 rfl rfl⟩

/-- C7: the wiring is strictly one-directional — every batch handed to the
uploader is the transform of some source batch, in source order, and the trace
of a run depends on the uploader only through its response to exactly those
batches. -/
theorem c7_one_directional_wiring :
    ∀ (tr : Transformer) (csvBatches : List (List RawRow)),
      (∀ ob ∈ ImportWorker.runBatches tr csvBatches,
        ∃ raw ∈ csvBatches, ob = tr.transform_batch raw) ∧
      (ImportWorker.runBatches tr csvBatches).Sublist
        (csvBatches.map tr.transform_batch) ∧
      (∀ (ins₁ ins₂ : List (List String × List (List String)) →
          List (Nat × Nat) × Except String Nat),
        ins₁ (ImportWorker.runBatches tr csvBatches) =
          ins₂ (ImportWorker.runBatches tr csvBatches) →
        ImportWorker.runTrace (Except.ok csvBatches) tr ins₁ =
          ImportWorker.runTrace (Except.ok csvBatches) tr ins₂) := by
  intro tr csvBatches
  refine ⟨?_, ?_, ?_⟩
  · induction csvBatches with
    | nil => intro ob h; cases h
    | cons b t ih =>
      intro ob h
      simp only [ImportWorker.runBatches] at h
      split at h
      · rcases List.mem_cons.mp h with heq | htail
        · exact ⟨b, List.mem_cons_self b t, heq⟩
        · obtain ⟨raw, hraw, hob⟩ := ih ob htail
          exact ⟨raw, List.mem_cons_of_mem b hraw, hob⟩
      · obtain ⟨raw, hraw, hob⟩ := ih ob h
        exact ⟨raw, List.mem_cons_of_mem b hraw, hob⟩
  · induction csvBatches with
    | nil => exact List.nil_sublist _
    | cons b t ih =>
      simp only [ImportWorker.runBatches, List.map_cons]
      split
      · exact ih.cons₂ _
      · exact ih.cons _
  · intro ins₁ ins₂ h
    simp only [ImportWorker.runTrace, h]

/-- Witness for C7: the single uploaded batch traces back to the single source
batch. -/
theorem c7_one_directional_wiring_witness :
    ∃ raw ∈ ([[[("c", "y")]]] : List (List RawRow)),
      ((["t"], [["y"]]) : List String × List (List String)) =
        Transformer.transform_batch ⟨[("t", ["c"])], [], fun _ v => some v⟩ raw :=
  (c7_one_directional_wiring ⟨[("t", ["c"])], [], fun _ v => some v⟩
      [[[("c", "y")]]]).1 (["t"], [["y"]]) (by decide)

end DataBridge
